import Mathlib

/-!
Verification of the koa route-file loader (`src/index.js`).

The loader resolves a directory, checks accessibility, recursively lists
files, filters them by extension and ignore patterns, dynamically imports
each file, validates the exported route descriptor, rewrites its `path`
(join of prefix, relative directory and declared path, backslashes replaced
by `/`, leading `/` ensured) and registers it on a fresh router.

The embedding below models the JavaScript semantics the code relies on:
the Node posix `path` functions (`join`, `normalize`, `resolve`, `relative`,
`dirname`, `extname`), JS truthiness (an empty array is truthy, an empty
string is falsy), the ES-module cache (an imported module default export
is a shared object that in-place mutations persist on), and the router
`register`, modelled as appending an entry to the router stack.
-/

namespace KoaLoader

/-! ## Node posix path primitives, on `List Char` -/

/-- JS `str.split('/')`: split on `'/'`, keeping empty pieces. -/
def splitSlash : List Char → List (List Char)
  | [] => [[]]
  | c :: cs =>
    if c = '/' then [] :: splitSlash cs
    else
      match splitSlash cs with
      | [] => [[c]]
      | p :: ps => (c :: p) :: ps

/-- Join segments with a single `'/'` between them (JS `segs.join('/')`). -/
def joinSegs : List (List Char) → List Char
  | [] => []
  | [s] => s
  | s :: rest => s ++ '/' :: joinSegs rest

/-- One step of the Node `normalizeString`: process a single path segment
against the (reversed) accumulator of already-kept segments. -/
def stepSeg (allowAboveRoot : Bool) (acc : List (List Char)) (s : List Char) :
    List (List Char) :=
  if s = [] ∨ s = ['.'] then acc
  else if s = ['.', '.'] then
    match acc with
    | [] => if allowAboveRoot then [['.', '.']] else []
    | a :: rest =>
      if a = ['.', '.'] then (if allowAboveRoot then ['.', '.'] :: acc else acc)
      else rest
  else s :: acc

/-- the Node `normalizeString` on a segment list: drops empty and `.` segments
and resolves `..` (kept only above root when `allowAboveRoot`). -/
def normalizeSegs (allowAboveRoot : Bool) (l : List (List Char)) : List (List Char) :=
  (l.foldl (stepSeg allowAboveRoot) []).reverse

/-- Whether a path starts with `'/'`. -/
def isAbsC (cs : List Char) : Bool :=
  match cs with | '/' :: _ => true | _ => false

/-- Whether a path ends with `'/'`. -/
def isTrailC (cs : List Char) : Bool :=
  match cs.getLast? with | some '/' => true | _ => false

/-- The tail of the Node `posix.normalize`: reassemble the normalized segment
string `ns`, restoring the leading and trailing separator. -/
def assemble (isAbs trailing : Bool) (ns : List Char) : List Char :=
  if ns = [] then
    if isAbs then ['/'] else if trailing then ['.', '/'] else ['.']
  else
    let ns2 := if trailing then ns ++ ['/'] else ns
    if isAbs then '/' :: ns2 else ns2

/-- Node `path.posix.normalize`. -/
def normalizeChars (cs : List Char) : List Char :=
  if cs = [] then ['.']
  else
    assemble (isAbsC cs) (isTrailC cs)
      (joinSegs (normalizeSegs (!isAbsC cs) (splitSlash cs)))

/-- Node `path.posix.join`: drop empty arguments, join with `'/'`, normalize;
`'.'` when every argument is empty. -/
def joinChars (parts : List (List Char)) : List Char :=
  let ne := parts.filter (fun p => p ≠ [])
  if ne = [] then ['.'] else normalizeChars (joinSegs ne)

/-- Node `path.posix.resolve` restricted to one path argument, with the
process working directory supplied explicitly. -/
def resolveChars (cwd p : List Char) : List Char :=
  let abs0 : Bool := match p with | '/' :: _ => true | _ => false
  let r0 := if p = [] then [] else p ++ ['/']
  let r := if abs0 then r0 else if cwd = [] then r0 else cwd ++ '/' :: r0
  let abs1 : Bool :=
    if abs0 then true
    else if cwd = [] then false
    else match cwd with | '/' :: _ => true | _ => false
  let ns := joinSegs (normalizeSegs (!abs1) (splitSlash r))
  if abs1 then '/' :: ns else if ns = [] then ['.'] else ns

/-- Nonempty `'/'`-separated segments of a path. -/
def segsNE (cs : List Char) : List (List Char) :=
  (splitSlash cs).filter (fun p => p ≠ [])

/-- Length of the common prefix of two segment lists. -/
def commonLen : List (List Char) → List (List Char) → Nat
  | a :: as, b :: bs => if a = b then commonLen as bs + 1 else 0
  | _, _ => 0

/-- Node `path.posix.relative` (segment-wise on the resolved paths, which
agrees with the Node byte-level scan on resolved, normalized inputs). -/
def relativeChars (cwd src dst : List Char) : List Char :=
  if src = dst then []
  else
    let f := resolveChars cwd src
    let t := resolveChars cwd dst
    if f = t then []
    else
      let fs := segsNE f
      let ts := segsNE t
      let n := commonLen fs ts
      joinSegs (List.replicate (fs.length - n) ['.', '.'] ++ ts.drop n)

/-- Node `path.posix.dirname`. -/
def dirnameChars (p : List Char) : List Char :=
  if p = [] then ['.']
  else
    let hasRoot : Bool := match p with | '/' :: _ => true | _ => false
    let r1 := p.reverse.dropWhile (fun c => c = '/')
    let r2 := r1.dropWhile (fun c => c ≠ '/')
    if r2.length ≤ 1 then (if hasRoot then ['/'] else ['.'])
    else if hasRoot ∧ r2.length = 2 then ['/', '/']
    else p.take (r2.length - 1)

/-- Scan state for Node `path.posix.extname` (a right-to-left scan). -/
structure ExtSt where
  startDot : Option Nat
  startPart : Nat
  endIdx : Option Nat
  matchedSlash : Bool
  preDot : Int
  stopped : Bool
deriving DecidableEq

/-- One step of the `extname` scan, fed `(index, char)` pairs from the end. -/
def extStep (st : ExtSt) (ic : Nat × Char) : ExtSt :=
  if st.stopped then st
  else
    let i := ic.1
    let c := ic.2
    if c = '/' then
      if st.matchedSlash then st
      else { st with startPart := i + 1, stopped := true }
    else
      let st1 :=
        if st.endIdx = none then { st with matchedSlash := false, endIdx := some (i + 1) }
        else st
      if c = '.' then
        match st1.startDot with
        | none => { st1 with startDot := some i }
        | some _ => if st1.preDot ≠ 1 then { st1 with preDot := 1 } else st1
      else
        if st1.startDot ≠ none then { st1 with preDot := -1 } else st1

/-- Node `path.posix.extname`: the suffix from the last `.` of the basename,
except that a dot opening the basename does not start an extension
(`extname ".js" = ""`) and `".."` has no extension. -/
def extnameChars (p : List Char) : List Char :=
  let st0 : ExtSt := ⟨none, 0, none, true, 0, false⟩
  let st := (p.enum.reverse).foldl extStep st0
  match st.startDot, st.endIdx with
  | some sd, some e =>
    if st.preDot = 0 then []
    else if st.preDot = 1 ∧ sd + 1 = e ∧ sd = st.startPart + 1 then []
    else (p.take e).drop sd
  | _, _ => []

/-- JS `str.replaceAll('\\', '/')`. -/
def replaceBS (cs : List Char) : List Char :=
  cs.map (fun c => if c = '\\' then '/' else c)

/-- The loader final route path (src/index.js lines 80-82): join the
prefix, the directory of the file relative to the root, and the declared
path; replace every backslash with `/`; prepend `/` when absent. -/
def finalPathChars (cwd pre absPath file declared : List Char) : List Char :=
  let joined := joinChars [pre, relativeChars cwd absPath (dirnameChars file), declared]
  let replaced := replaceBS joined
  match replaced with
  | '/' :: _ => replaced
  | _ => '/' :: replaced

/-! ## String wrappers -/

/-- Node `path.isAbsolute` (posix). -/
def isAbsoluteStr (s : String) : Bool :=
  match s.data with | '/' :: _ => true | _ => false

/-- Node `path.join` on strings. -/
def pathJoin (parts : List String) : String :=
  ⟨joinChars (parts.map String.data)⟩

/-- Node `path.extname` on strings. -/
def extnameStr (s : String) : String :=
  ⟨extnameChars s.data⟩

/-- The loader final route path, on strings. -/
def finalPath (cwd pre absPath file declared : String) : String :=
  ⟨finalPathChars cwd.data pre.data absPath.data file.data declared.data⟩

/-- Extension as the spec sentence words it for claim C9: "the
case-sensitive suffix starting at the last `.` of the file name"
(no dotfile exception). Used only to compare against `extnameStr`. -/
def specExtensionLastDot (s : String) : String :=
  match (s.data.reverse.splitOn '.').head? with
  | some revStem => if revStem.length = s.data.length then "" else ⟨'.' :: revStem.reverse⟩
  | none => ""


/-! ## Data model

A route descriptor (`Pkg`) models a module default export: each field is
`Option`-wrapped because a JS object may lack the property. JS truthiness:
a missing field and the empty string are falsy, but an *array is always
truthy, even when empty* — `![]` is `false` — which the validation at
src/index.js line 75 inherits. Handlers are abstract, modelled by `Nat` ids. -/

structure Pkg where
  path : Option String
  methods : Option (List String)
  handlers : Option (List Nat)
deriving DecidableEq, Repr

/-- Outcome of evaluating a route file as a module: the evaluation throws,
or yields a default export (`none` models a falsy/absent default). -/
inductive LoadOutcome where
  | throws (msg : String)
  | value (v : Option Pkg)
deriving DecidableEq, Repr

/-- A directory entry as returned by `fs.readdir` with `withFileTypes`:
its base name, its parent directory, and whether it is a regular file. -/
structure Dirent where
  name : String
  parentPath : String
  isFile : Bool
deriving DecidableEq, Repr

/-- The loader options. The source calls the first field `prefix`
(a reserved word in Lean, hence `prefixStr`). Ignore patterns are modelled
by their `test` predicate on the full file path. -/
structure Options where
  prefixStr : String
  fileExtensions : List String
  ignorePatterns : List (String → Bool)

/-- The defaults destructured at src/index.js line 53. -/
def defaultOptions : Options :=
  ⟨"", [".js", ".ts"], []⟩

/-- The outside world: working directory, whether `fs.access` succeeds on a
path, the recursive directory listing, the result of evaluating a file as a
fresh module (not yet cached), and whether `router.register` throws for a
file (the router is an external collaborator). -/
structure Env where
  cwd : String
  accessOk : String → Bool
  readdir : String → List Dirent
  freshLoad : String → LoadOutcome
  registerThrows : String → Bool

/-- One registered route: the entry `router.register` pushes on the
router stack. -/
structure RegEntry where
  path : String
  methods : List String
  handlers : List Nat
deriving DecidableEq, Repr

/-- Observable effects of a run, in order. -/
inductive Event where
  | access (p : String)
  | readdir (p : String)
  | importFile (f : String)
  | warn (msg : String)
  | register (p : String)
deriving DecidableEq, Repr

/-- The ES-module cache: evaluated modules keyed by file path. The cached
value is the module default export; in-place mutation of the exported
descriptor updates this store. -/
abbrev Store := List (String × Option Pkg)

def storeFind : Store → String → Option (Option Pkg)
  | [], _ => none
  | (k, v) :: rest, f => if k = f then some v else storeFind rest f

/-- Overwrite the cached binding for `f` (in-place mutation of the cached
module object). -/
def storeSet (st : Store) (f : String) (v : Option Pkg) : Store :=
  st.map (fun e => if e.1 = f then (f, v) else e)

/-! ## The pipeline (default export of src/index.js) -/

/-- JS truthiness of an optional string field: missing and `""` are falsy. -/
def truthyStr : Option String → Bool
  | none => false
  | some s => s ≠ ""

/-- The validation at line 75: `!pkg.path || !pkg.methods || !pkg.handlers`.
An array field passes as soon as it is present — an empty array is truthy. -/
def validPkg (pkg : Pkg) : Bool :=
  truthyStr pkg.path && pkg.methods.isSome && pkg.handlers.isSome

/-- Model of `await import(file)`: serve the cached module when present, otherwise
evaluate freshly and cache the evaluated module default export.
(A module whose evaluation throws contributes no cached value here; a
re-import re-throws identically either way.) -/
def importWithCache (env : Env) (st : Store) (file : String) : LoadOutcome × Store :=
  match storeFind st file with
  | some v => (.value v, st)
  | none =>
    match env.freshLoad file with
    | .throws m => (.throws m, st)
    | .value v => (.value v, st ++ [(file, v)])

/-- Result of processing one file: the module cache afterwards, the emitted
events, and the registered entry when registration happened. -/
structure StepOut where
  store : Store
  events : List Event
  entry : Option RegEntry

/-- What the loop body does once the import outcome `o` (with the module
cache `st'` as updated by the import itself) is at hand: validate, rewrite
the descriptor `path` in place, register — or warn and skip. -/
def stepOutcome (env : Env) (absPath pre file : String) (o : LoadOutcome)
    (st' : Store) : StepOut :=
  match o with
  | .throws m =>
    ⟨st', [.importFile file, .warn ("加载路由文件失败: " ++ file ++ " " ++ m)], none⟩
  | .value none =>
    ⟨st', [.importFile file,
           .warn ("跳过无效的路由文件: " ++ file ++ " - 缺少必要的导出属性")], none⟩
  | .value (some pkg) =>
    if validPkg pkg then
      let newPath := finalPath env.cwd pre absPath file (pkg.path.getD "")
      let pkg' : Pkg := { pkg with path := some newPath }
      let st'' := storeSet st' file (some pkg')
      if env.registerThrows file then
        ⟨st'', [.importFile file,
                .warn ("加载路由文件失败: " ++ file ++ " register error")], none⟩
      else
        ⟨st'', [.importFile file, .register newPath],
         some ⟨newPath, pkg.methods.getD [], pkg.handlers.getD []⟩⟩
    else
      ⟨st', [.importFile file,
             .warn ("跳过无效的路由文件: " ++ file ++ " - 缺少必要的导出属性")], none⟩

/-- The body of the `for` loop (src/index.js lines 72-88) for one file. -/
def processFile (env : Env) (absPath pre : String) (st : Store) (file : String) :
    StepOut :=
  let r := importWithCache env st file
  stepOutcome env absPath pre file r.1 r.2

/-- Result of the whole loop: cache, events, and the router stack. -/
structure FoldOut where
  store : Store
  events : List Event
  entries : List RegEntry

/-- The `for` loop over the surviving files, in discovery order. -/
def processFiles (env : Env) (absPath pre : String) :
    Store → List String → FoldOut
  | st, [] => ⟨st, [], []⟩
  | st, f :: rest =>
    let s := processFile env absPath pre st f
    let r := processFiles env absPath pre s.store rest
    ⟨r.store, s.events ++ r.events, s.entry.toList ++ r.entries⟩

/-- Line 55: resolve the directory argument against the working directory. -/
def absolutePathOf (env : Env) (dir : String) : String :=
  if isAbsoluteStr dir then dir else pathJoin [env.cwd, dir]

/-- Lines 64-66: recursive listing filtered to regular files whose
extension is in `fileExtensions`, mapped to full paths. -/
def filesOf (env : Env) (dir : String) (opts : Options) : List String :=
  (((env.readdir (absolutePathOf env dir)).filter
      (fun p => p.isFile && opts.fileExtensions.contains (extnameStr p.name))).map
    (fun p => pathJoin [p.parentPath, p.name]))

/-- Line 68: drop files matching any ignore pattern. -/
def filteredFilesOf (env : Env) (dir : String) (opts : Options) : List String :=
  (filesOf env dir opts).filter
    (fun file => !(opts.ignorePatterns.any (fun pat => pat file)))

/-- Result of one invocation of the loader: the returned router stack (or
the message of the thrown error), the module cache afterwards, and the effect
trace. -/
structure RunResult where
  result : Except String (List RegEntry)
  store : Store
  trace : List Event

/-- The default export of src/index.js: the whole load operation, from a
given module-cache state. -/
def loadRouters (env : Env) (st : Store) (routers_dir : String) (opts : Options) :
    RunResult :=
  let absolute_path := absolutePathOf env routers_dir
  if env.accessOk absolute_path then
    let r := processFiles env absolute_path opts.prefixStr st
               (filteredFilesOf env routers_dir opts)
    ⟨.ok r.entries, r.store,
     Event.access absolute_path :: Event.readdir absolute_path :: r.events⟩
  else
    ⟨.error ("路由目录不存在或无法访问: " ++ absolute_path), st,
     [Event.access absolute_path]⟩

/-- The registered entries of a run (empty when the run failed). -/
def resultEntries (r : RunResult) : List RegEntry :=
  match r.result with
  | .ok es => es
  | .error _ => []

instance {ε α : Type} [DecidableEq ε] [DecidableEq α] : DecidableEq (Except ε α) :=
  fun x y =>
    match x, y with
    | .ok a, .ok b => decidable_of_iff (a = b) (by simp)
    | .error a, .error b => decidable_of_iff (a = b) (by simp)
    | .ok _, .error _ => isFalse (by simp)
    | .error _, .ok _ => isFalse (by simp)

/-! ## Import outcomes rejected by the validation -/

/-- The import outcomes the validation at src/index.js line 75 rejects: a
falsy default export, or a falsy `path`/`methods`/`handlers` field. A
thrown import is not one of them (it is handled by the catch clause). -/
def invalidOutcome : LoadOutcome → Bool
  | .throws _ => false
  | .value none => true
  | .value (some pkg) => !(validPkg pkg)

/-! ## Concrete environments for counterexamples and witnesses -/

/-- One route file whose descriptor declares an empty `methods` array. -/
def envEmptyMethods : Env :=
  ⟨"/app", fun _ => true,
   fun p => if p = "/r" then [⟨"a.js", "/r", true⟩] else [],
   fun f => if f = "/r/a.js" then .value (some ⟨some "/x", some [], some [1]⟩)
            else .value none,
   fun _ => false⟩

/-- A world in which no directory is accessible. -/
def envNoAccess : Env :=
  ⟨"/app", fun _ => false, fun _ => [], fun _ => .value none, fun _ => false⟩

/-- One route file whose module has no default export. -/
def envNoDefault : Env :=
  ⟨"/app", fun _ => true,
   fun p => if p = "/r" then [⟨"a.js", "/r", true⟩] else [],
   fun _ => .value none,
   fun _ => false⟩

/-- One valid route file `login.js` declaring path `/login`. -/
def envLogin : Env :=
  ⟨"/app", fun _ => true,
   fun p => if p = "/r" then [⟨"login.js", "/r", true⟩] else [],
   fun f => if f = "/r/login.js"
            then .value (some ⟨some "/login", some ["post"], some [1]⟩)
            else .value none,
   fun _ => false⟩

/-- Options with the `/api` prefix. -/
def optsApi : Options := ⟨"/api", [".js", ".ts"], []⟩

/-- A valid route file and a `.test.js` file, with an ignore pattern for
the latter. -/
def envIgnore : Env :=
  ⟨"/app", fun _ => true,
   fun p => if p = "/r" then [⟨"login.js", "/r", true⟩, ⟨"a.test.js", "/r", true⟩]
            else [],
   fun f => if f = "/r/login.js"
            then .value (some ⟨some "/login", some ["post"], some [1]⟩)
            else .value (some ⟨some "/ignored", some ["get"], some [2]⟩),
   fun _ => false⟩

/-- Default options plus one ignore pattern matching `/r/a.test.js`. -/
def optsIgnore : Options :=
  ⟨"", [".js", ".ts"], [fun s => s = "/r/a.test.js"]⟩

/-- Boolean prefix test on character lists (used to state leading-slash
properties of registered paths). -/
def hasPrefixC : List Char → List Char → Bool
  | [], _ => true
  | _ :: _, [] => false
  | p :: ps, c :: cs => if p = c then hasPrefixC ps cs else false

/-- One route file whose descriptor declares the path with two leading
backslashes. -/
def envBackslash : Env :=
  ⟨"/app", fun _ => true,
   fun p => if p = "/r" then [⟨"a.js", "/r", true⟩] else [],
   fun f => if f = "/r/a.js"
            then .value (some ⟨some "\\\\login", some ["get"], some [1]⟩)
            else .value none,
   fun _ => false⟩

/-- A regular file named `.js`: its "suffix from the last dot" is `.js`,
but the Node `extname` yields `""` for it. -/
def envDotfile : Env :=
  ⟨"/app", fun _ => true,
   fun p => if p = "/r" then [⟨".js", "/r", true⟩] else [],
   fun _ => .value (some ⟨some "/dot", some ["get"], some [3]⟩),
   fun _ => false⟩

/-- The outcome of processing a file against an empty module cache (a
"fresh" load, as on a first invocation). -/
def freshEntryOf (env : Env) (absPath pre f : String) : Option RegEntry :=
  (processFile env absPath pre [] f).entry

/-- Two valid route files. -/
def envTwoFiles : Env :=
  ⟨"/app", fun _ => true,
   fun p => if p = "/r"
            then [⟨"login.js", "/r", true⟩, ⟨"create.js", "/r", true⟩] else [],
   fun f => if f = "/r/login.js"
            then .value (some ⟨some "/login", some ["post"], some [1]⟩)
            else if f = "/r/create.js"
            then .value (some ⟨some "/resource", some ["post"], some [2]⟩)
            else .value none,
   fun _ => false⟩

/-- A module cache each entry of which matches what a fresh evaluation of
the same file would produce. -/
def stableStore (env : Env) (st : Store) : Prop :=
  ∀ f v, storeFind st f = some v → env.freshLoad f = .value v

/-- The path rewrite is a fixpoint at `f`: the computed final path of a
freshly loaded valid descriptor equals its declared path. -/
def FixAt (env : Env) (absPath pre f : String) : Prop :=
  ∀ pkg, env.freshLoad f = .value (some pkg) → validPkg pkg = true →
    finalPath env.cwd pre absPath f (pkg.path.getD "") = pkg.path.getD ""

/-- A segment the normalizer keeps: nonempty and not `"."`. -/
def realSeg (s : List Char) : Bool :=
  s ≠ [] && s ≠ ['.']

/-- A route file declaring the path `".."` — nonempty, hence valid. -/
def envDotDot : Env :=
  ⟨"/app", fun _ => true,
   fun p => if p = "/r" then [⟨"a.js", "/r", true⟩] else [],
   fun f => if f = "/r/a.js" then .value (some ⟨some "..", some ["get"], some [1]⟩)
            else .value none,
   fun _ => false⟩

/-! ## Evaluation checks of the path primitives -/

example : pathJoin ["/api", "", "/login"] = "/api/login" := by decide
example : pathJoin ["", "", "/login"] = "/login" := by decide
example : pathJoin ["", "", "login"] = "login" := by decide
example : pathJoin ["/api", "sub", "x/:id"] = "/api/sub/x/:id" := by decide
example : pathJoin ["/api", "", ".."] = "/" := by decide
example : extnameStr "a.test.js" = ".js" := by decide
example : extnameStr ".js" = "" := by decide
example : extnameStr "a." = "." := by decide
example : extnameStr ".." = "" := by decide
example : extnameStr "noext" = "" := by decide
example : specExtensionLastDot ".js" = ".js" := by decide
example : specExtensionLastDot "a.test.js" = ".js" := by decide
example : specExtensionLastDot "noext" = "" := by decide
example : relativeChars "/app".data "/r".data "/r".data = [] := by decide
example : relativeChars "/app".data "/r".data "/r/sub".data = "sub".data := by decide
example : dirnameChars "/r/a.js".data = "/r".data := by decide
example : finalPath "/app" "" "/r" "/r/a.js" "/login" = "/login" := by decide
example : finalPath "/app" "/api" "/r" "/r/sub/a.js" "/x" = "/api/sub/x" := by decide
example : finalPath "/app" "" "/r" "/r/a.js" "\\\\login" = "//login" := by decide
example : finalPath "/app" "/api" "/r" "/r/a.js" ".." = "/" := by decide
example : finalPath "/app" "/api" "/r" "/r/a.js" "/api/login" = "/api/api/login" := by decide

/-! ## Structural lemmas about the per-file loop -/

theorem processFile_eq (env : Env) (absPath pre : String) (st : Store) (f : String) :
    processFile env absPath pre st f =
      stepOutcome env absPath pre f (importWithCache env st f).1
        (importWithCache env st f).2 := rfl

/-- A registered entry always comes from a validated descriptor obtained by
the import, registered under the computed final path. -/
theorem processFile_entry_some (env : Env) (absPath pre : String) (st : Store)
    (f : String) (e : RegEntry)
    (h : (processFile env absPath pre st f).entry = some e) :
    ∃ pkg, (importWithCache env st f).1 = LoadOutcome.value (some pkg)
      ∧ validPkg pkg = true ∧ env.registerThrows f = false
      ∧ e = ⟨finalPath env.cwd pre absPath f (pkg.path.getD ""),
             pkg.methods.getD [], pkg.handlers.getD []⟩ := by
  rw [processFile_eq] at h
  rcases ho : (importWithCache env st f).1 with m | (_ | pkg) <;> rw [ho] at h
  · simp [stepOutcome] at h
  · simp [stepOutcome] at h
  · by_cases hv : validPkg pkg = true
    · by_cases hr : env.registerThrows f = true
      · simp [stepOutcome, hv, hr] at h
      · rw [Bool.not_eq_true] at hr
        simp [stepOutcome, hv, hr] at h
        exact ⟨pkg, ho ▸ rfl, hv, hr, h.symm⟩
    · simp [stepOutcome, hv] at h

/-- A skipped file (no registered entry) always emits a warning. -/
theorem processFile_entry_none_warn (env : Env) (absPath pre : String) (st : Store)
    (f : String) (h : (processFile env absPath pre st f).entry = none) :
    ∃ m, Event.warn m ∈ (processFile env absPath pre st f).events := by
  rw [processFile_eq] at h ⊢
  rcases ho : (importWithCache env st f).1 with m | (_ | pkg) <;> rw [ho] at h
  · exact ⟨"加载路由文件失败: " ++ f ++ " " ++ m, by simp [stepOutcome]⟩
  · exact ⟨"跳过无效的路由文件: " ++ f ++ " - 缺少必要的导出属性", by simp [stepOutcome]⟩
  · by_cases hv : validPkg pkg = true
    · by_cases hr : env.registerThrows f = true
      · exact ⟨"加载路由文件失败: " ++ f ++ " register error",
          by simp [stepOutcome, hv, hr]⟩
      · rw [Bool.not_eq_true] at hr
        simp [stepOutcome, hv, hr] at h
    · exact ⟨"跳过无效的路由文件: " ++ f ++ " - 缺少必要的导出属性",
        by simp [stepOutcome, hv]⟩

/-- The only import event processing a file emits is for that very file. -/
theorem processFile_importEvent (env : Env) (absPath pre : String) (st : Store)
    (f x : String) (h : Event.importFile x ∈ (processFile env absPath pre st f).events) :
    x = f := by
  rw [processFile_eq] at h
  rcases ho : (importWithCache env st f).1 with m | (_ | pkg) <;> rw [ho] at h
  · simp [stepOutcome] at h; exact h
  · simp [stepOutcome] at h; exact h
  · by_cases hv : validPkg pkg = true
    · by_cases hr : env.registerThrows f = true
      · simp [stepOutcome, hv, hr] at h; exact h
      · simp [stepOutcome, hv, hr] at h; exact h
    · simp [stepOutcome, hv] at h; exact h

theorem processFiles_nil (env : Env) (absPath pre : String) (st : Store) :
    processFiles env absPath pre st [] = ⟨st, [], []⟩ := rfl

theorem processFiles_cons (env : Env) (absPath pre : String) (st : Store)
    (f : String) (rest : List String) :
    processFiles env absPath pre st (f :: rest) =
      ⟨(processFiles env absPath pre (processFile env absPath pre st f).store rest).store,
       (processFile env absPath pre st f).events ++
         (processFiles env absPath pre (processFile env absPath pre st f).store rest).events,
       (processFile env absPath pre st f).entry.toList ++
         (processFiles env absPath pre (processFile env absPath pre st f).store rest).entries⟩ :=
  rfl

/-- Every registered entry comes from some file of the processed list, and
carries the computed final path of that file descriptor. -/
theorem mem_entries_processFiles (env : Env) (absPath pre : String) :
    ∀ (files : List String) (st : Store) (e : RegEntry),
      e ∈ (processFiles env absPath pre st files).entries →
      ∃ f pkg, f ∈ files ∧ validPkg pkg = true
        ∧ e = ⟨finalPath env.cwd pre absPath f (pkg.path.getD ""),
               pkg.methods.getD [], pkg.handlers.getD []⟩ := by
  intro files
  induction files with
  | nil => intro st e h; simp [processFiles] at h
  | cons f rest ih =>
    intro st e h
    rw [processFiles_cons] at h
    simp only [List.mem_append] at h
    rcases h with h | h
    · rw [Option.mem_toList, Option.mem_def] at h
      obtain ⟨pkg, _, hv, _, he⟩ := processFile_entry_some env absPath pre st f e h
      exact ⟨f, pkg, by simp, hv, he⟩
    · obtain ⟨g, pkg, hg, hv, he⟩ := ih _ e h
      exact ⟨g, pkg, by simp [hg], hv, he⟩

/-- Every import event of the loop belongs to a file of the processed list. -/
theorem mem_importEvents_processFiles (env : Env) (absPath pre : String) :
    ∀ (files : List String) (st : Store) (x : String),
      Event.importFile x ∈ (processFiles env absPath pre st files).events →
      x ∈ files := by
  intro files
  induction files with
  | nil => intro st x h; simp [processFiles] at h
  | cons f rest ih =>
    intro st x h
    rw [processFiles_cons] at h
    simp only [List.mem_append] at h
    rcases h with h | h
    · exact (processFile_importEvent env absPath pre st f x h) ▸ List.mem_cons_self f rest
    · exact List.mem_cons_of_mem f (ih _ x h)

/-! ## Module-cache lemmas -/

theorem storeFind_cons (k : String) (w : Option Pkg) (rest : Store) (f : String) :
    storeFind ((k, w) :: rest) f = if k = f then some w else storeFind rest f := rfl

theorem storeSet_cons (k : String) (w : Option Pkg) (rest : Store) (f : String)
    (v : Option Pkg) :
    storeSet ((k, w) :: rest) f v =
      (if k = f then (f, v) else (k, w)) :: storeSet rest f v := rfl

theorem storeFind_append_ne (st : Store) (f g : String) (v : Option Pkg)
    (h : g ≠ f) : storeFind (st ++ [(f, v)]) g = storeFind st g := by
  induction st with
  | nil =>
    rw [List.nil_append, storeFind_cons, if_neg (fun hfg => h hfg.symm)]
  | cons e rest ih =>
    rcases e with ⟨k, w⟩
    rw [List.cons_append, storeFind_cons, storeFind_cons, ih]

theorem storeFind_append_self (st : Store) (f : String) (v : Option Pkg)
    (h : storeFind st f = none) : storeFind (st ++ [(f, v)]) f = some v := by
  induction st with
  | nil => simp [storeFind, storeFind_cons]
  | cons e rest ih =>
    rcases e with ⟨k, w⟩
    rw [storeFind_cons] at h
    by_cases hk : k = f
    · rw [if_pos hk] at h; exact absurd h (by simp)
    · rw [if_neg hk] at h
      rw [List.cons_append, storeFind_cons, if_neg hk]
      exact ih h

theorem storeFind_storeSet_ne (st : Store) (f g : String) (v : Option Pkg)
    (h : g ≠ f) : storeFind (storeSet st f v) g = storeFind st g := by
  induction st with
  | nil => rfl
  | cons e rest ih =>
    rcases e with ⟨k, w⟩
    rw [storeSet_cons]
    by_cases hk : k = f
    · rw [if_pos hk, storeFind_cons, storeFind_cons, if_neg (fun hfg => h hfg.symm),
        if_neg (fun hkg => h (hk ▸ hkg).symm), ih]
    · rw [if_neg hk, storeFind_cons, storeFind_cons, ih]

theorem storeFind_storeSet_self (st : Store) (f : String) (v : Option Pkg)
    (h : storeFind st f ≠ none) : storeFind (storeSet st f v) f = some v := by
  induction st with
  | nil => simp [storeFind] at h
  | cons e rest ih =>
    rcases e with ⟨k, w⟩
    rw [storeFind_cons] at h
    rw [storeSet_cons]
    by_cases hk : k = f
    · rw [if_pos hk, storeFind_cons, if_pos rfl]
    · rw [if_neg hk] at h
      rw [if_neg hk, storeFind_cons, if_neg hk]
      exact ih h

theorem importWithCache_store_find (env : Env) (st : Store) (f g : String)
    (h : g ≠ f) : storeFind (importWithCache env st f).2 g = storeFind st g := by
  unfold importWithCache
  rcases hf : storeFind st f with _ | v
  · rcases hl : env.freshLoad f with m | v
    · simp
    · simp [storeFind_append_ne st f g v h]
  · simp

theorem stepOutcome_store_find (env : Env) (absPath pre f : String)
    (o : LoadOutcome) (st' : Store) (g : String) (h : g ≠ f) :
    storeFind (stepOutcome env absPath pre f o st').store g = storeFind st' g := by
  rcases o with m | (_ | pkg)
  · rfl
  · rfl
  · simp only [stepOutcome]
    by_cases hv : validPkg pkg = true
    · by_cases hr : env.registerThrows f = true
      · simp [hv, hr, storeFind_storeSet_ne _ _ _ _ h]
      · simp [hv, hr, storeFind_storeSet_ne _ _ _ _ h]
    · simp [hv]

theorem processFile_store_find (env : Env) (absPath pre : String) (st : Store)
    (f g : String) (h : g ≠ f) :
    storeFind (processFile env absPath pre st f).store g = storeFind st g := by
  rw [processFile_eq, stepOutcome_store_find env absPath pre f _ _ g h,
    importWithCache_store_find env st f g h]

/-! ## The loader only consults the environment at the processed files -/

theorem importWithCache_congr (env env' : Env) (st : Store) (f : String)
    (h : env'.freshLoad f = env.freshLoad f) :
    importWithCache env' st f = importWithCache env st f := by
  unfold importWithCache
  rw [h]

theorem processFile_congr (env env' : Env) (absPath pre : String) (st : Store)
    (f : String) (hc : env'.cwd = env.cwd)
    (hr : env'.registerThrows f = env.registerThrows f)
    (hl : env'.freshLoad f = env.freshLoad f) :
    processFile env' absPath pre st f = processFile env absPath pre st f := by
  rw [processFile_eq, processFile_eq, importWithCache_congr env env' st f hl]
  unfold stepOutcome
  simp only [hc, hr]

theorem processFiles_congr (env env' : Env) (absPath pre : String)
    (hc : env'.cwd = env.cwd) :
    ∀ (files : List String) (st : Store),
      (∀ x ∈ files, env'.freshLoad x = env.freshLoad x) →
      (∀ x ∈ files, env'.registerThrows x = env.registerThrows x) →
      processFiles env' absPath pre st files = processFiles env absPath pre st files := by
  intro files
  induction files with
  | nil => intro st _ _; rfl
  | cons f rest ih =>
    intro st hl hr
    rw [processFiles_cons, processFiles_cons]
    have h1 : processFile env' absPath pre st f = processFile env absPath pre st f :=
      processFile_congr env env' absPath pre st f hc (hr f (by simp)) (hl f (by simp))
    rw [h1, ih (processFile env absPath pre st f).store
          (fun x hx => hl x (by simp [hx])) (fun x hx => hr x (by simp [hx]))]

/-! ## Unfolding the load operation -/

theorem loadRouters_accessFalse (env : Env) (st : Store) (dir : String)
    (opts : Options) (h : env.accessOk (absolutePathOf env dir) = false) :
    loadRouters env st dir opts =
      ⟨.error ("路由目录不存在或无法访问: " ++ absolutePathOf env dir), st,
       [Event.access (absolutePathOf env dir)]⟩ := by
  simp only [loadRouters, h]
  simp

theorem loadRouters_accessTrue (env : Env) (st : Store) (dir : String)
    (opts : Options) (h : env.accessOk (absolutePathOf env dir) = true) :
    loadRouters env st dir opts =
      ⟨.ok (processFiles env (absolutePathOf env dir) opts.prefixStr st
              (filteredFilesOf env dir opts)).entries,
       (processFiles env (absolutePathOf env dir) opts.prefixStr st
          (filteredFilesOf env dir opts)).store,
       Event.access (absolutePathOf env dir) :: Event.readdir (absolutePathOf env dir)
         :: (processFiles env (absolutePathOf env dir) opts.prefixStr st
              (filteredFilesOf env dir opts)).events⟩ := by
  simp only [loadRouters, h]
  simp

theorem importWithCache_hit (env : Env) (st : Store) (f : String) (v : Option Pkg)
    (h : storeFind st f = some v) :
    importWithCache env st f = (.value v, st) := by
  unfold importWithCache; rw [h]

theorem importWithCache_missThrows (env : Env) (st : Store) (f m : String)
    (h1 : storeFind st f = none) (h2 : env.freshLoad f = .throws m) :
    importWithCache env st f = (.throws m, st) := by
  unfold importWithCache; rw [h1, h2]

theorem importWithCache_missValue (env : Env) (st : Store) (f : String)
    (v : Option Pkg) (h1 : storeFind st f = none) (h2 : env.freshLoad f = .value v) :
    importWithCache env st f = (.value v, st ++ [(f, v)]) := by
  unfold importWithCache; rw [h1, h2]

/-- When the import delivered a module value, the cache afterwards holds
exactly that value for the file. -/
theorem importWithCache_cached (env : Env) (st : Store) (f : String) (v : Option Pkg)
    (h : (importWithCache env st f).1 = LoadOutcome.value v) :
    storeFind (importWithCache env st f).2 f = some v := by
  rcases hf : storeFind st f with _ | w
  · rcases hl : env.freshLoad f with m | w
    · rw [importWithCache_missThrows env st f m hf hl] at h
      simp at h
    · rw [importWithCache_missValue env st f w hf hl] at h ⊢
      simp only [LoadOutcome.value.injEq] at h
      subst h
      exact storeFind_append_self st f _ hf
  · rw [importWithCache_hit env st f w hf] at h ⊢
    simp only [LoadOutcome.value.injEq] at h
    subst h
    exact hf



/-! ## Claim C1 -/

/-- C1 (counterexample): a descriptor declaring an *empty* `methods` array
passes the line-75 validation — in JS `![]` is `false`, so an empty array
is truthy — and the file is registered, not skipped: the returned router
holds one entry rather than zero. -/
theorem claim1_counterexample :
    validPkg ⟨some "/x", some [], some [1]⟩ = true
    ∧ (loadRouters envEmptyMethods [] "/r" defaultOptions).result
        = Except.ok [⟨"/x", [], [1]⟩] := by decide

/-- C1 (amended): when the import outcome is a falsy default export or a
descriptor with a missing `path`/`methods`/`handlers` field or an empty
`path` string (the conditions line 75 actually tests), the file is skipped
with a warning and no entry; and an accessible load never fails, whatever
the per-file outcomes. An empty `methods` or `handlers` *array* is not
rejected. -/
theorem claim1_amended (env : Env) (st : Store) (dir : String) (opts : Options)
    (absPath pre : String) (st2 : Store) (f : String)
    (hacc : env.accessOk (absolutePathOf env dir) = true)
    (hbad : invalidOutcome (importWithCache env st2 f).1 = true) :
    (∃ es, (loadRouters env st dir opts).result = Except.ok es)
    ∧ (processFile env absPath pre st2 f).entry = none
    ∧ Event.warn ("跳过无效的路由文件: " ++ f ++ " - 缺少必要的导出属性")
        ∈ (processFile env absPath pre st2 f).events := by
  refine ⟨⟨_, by rw [loadRouters_accessTrue env st dir opts hacc]⟩, ?_, ?_⟩
  · rw [processFile_eq]
    rcases ho : (importWithCache env st2 f).1 with m | (_ | pkg) <;> rw [ho] at hbad
    · simp [invalidOutcome] at hbad
    · simp [stepOutcome]
    · simp only [invalidOutcome, Bool.not_eq_true'] at hbad
      simp [stepOutcome, hbad]
  · rw [processFile_eq]
    rcases ho : (importWithCache env st2 f).1 with m | (_ | pkg) <;> rw [ho] at hbad
    · simp [invalidOutcome] at hbad
    · simp [stepOutcome]
    · simp only [invalidOutcome, Bool.not_eq_true'] at hbad
      simp [stepOutcome, hbad]

theorem claim1_witness :
    (∃ es, (loadRouters envNoDefault [] "/r" defaultOptions).result = Except.ok es)
    ∧ (processFile envNoDefault "/r" "" [] "/r/a.js").entry = none
    ∧ Event.warn ("跳过无效的路由文件: " ++ "/r/a.js" ++ " - 缺少必要的导出属性")
        ∈ (processFile envNoDefault "/r" "" [] "/r/a.js").events :=
  claim1_amended envNoDefault [] "/r" defaultOptions "/r" "" [] "/r/a.js"
    (by decide) (by decide)

/-! ## Claim C3 -/

/-- C3 (confirmed): a root directory failing the access check makes the
load fail with an error carrying the resolved absolute path; the only
effect is the access probe itself — no listing, no import, no
registration, and the module cache is untouched. -/
theorem claim3 (env : Env) (st : Store) (dir : String) (opts : Options)
    (hacc : env.accessOk (absolutePathOf env dir) = false) :
    (loadRouters env st dir opts).result
      = Except.error ("路由目录不存在或无法访问: " ++ absolutePathOf env dir)
    ∧ (loadRouters env st dir opts).trace = [Event.access (absolutePathOf env dir)]
    ∧ (loadRouters env st dir opts).store = st := by
  rw [loadRouters_accessFalse env st dir opts hacc]
  exact ⟨rfl, rfl, rfl⟩

theorem claim3_witness :
    (loadRouters envNoAccess [] "routes" defaultOptions).result
      = Except.error ("路由目录不存在或无法访问: " ++ absolutePathOf envNoAccess "routes")
    ∧ (loadRouters envNoAccess [] "routes" defaultOptions).trace
      = [Event.access (absolutePathOf envNoAccess "routes")]
    ∧ (loadRouters envNoAccess [] "routes" defaultOptions).store = [] :=
  claim3 envNoAccess [] "routes" defaultOptions (by decide)

/-! ## Claim C4 -/

/-- C4 (confirmed): with an accessible directory the load always returns a
router (an `ok` result), whatever each file import/validation/
registration outcome; an empty surviving file list yields a router with
zero routes, still `ok`; and a file whose processing registers nothing
leaves the remaining files' registrations untouched and emits a warning —
the loop continues. -/
theorem claim4 (env : Env) (st : Store) (dir : String) (opts : Options)
    (hacc : env.accessOk (absolutePathOf env dir) = true) :
    (∃ es, (loadRouters env st dir opts).result = Except.ok es)
    ∧ (filteredFilesOf env dir opts = [] →
        (loadRouters env st dir opts).result = Except.ok [])
    ∧ (∀ (absPath pre : String) (st2 : Store) (f : String) (rest : List String),
        (processFile env absPath pre st2 f).entry = none →
          (processFiles env absPath pre st2 (f :: rest)).entries
            = (processFiles env absPath pre
                 (processFile env absPath pre st2 f).store rest).entries
          ∧ ∃ m, Event.warn m ∈ (processFile env absPath pre st2 f).events) := by
  refine ⟨⟨_, by rw [loadRouters_accessTrue env st dir opts hacc]⟩, ?_, ?_⟩
  · intro hempty
    rw [loadRouters_accessTrue env st dir opts hacc, hempty]
    rfl
  · intro absPath pre st2 f rest hnone
    refine ⟨?_, processFile_entry_none_warn env absPath pre st2 f hnone⟩
    rw [processFiles_cons]
    simp [hnone]

theorem claim4_witness :
    ∃ es, (loadRouters envNoDefault [] "/r" defaultOptions).result = Except.ok es :=
  (claim4 envNoDefault [] "/r" defaultOptions (by decide)).1

/-! ## Claim C8 -/

/-- C8 (confirmed): a file matching some ignore pattern is dropped before
loading: it is not among the surviving files, it is never imported (the
trace has no import event for it), and the run outcome does not depend
on what loading it would have produced — replacing the module behind it
by anything changes nothing. -/
theorem claim8 (env : Env) (st : Store) (dir : String) (opts : Options)
    (f : String) (g : String → LoadOutcome)
    (hmatch : opts.ignorePatterns.any (fun pat => pat f) = true)
    (hg : ∀ x, x ≠ f → g x = env.freshLoad x) :
    f ∉ filteredFilesOf env dir opts
    ∧ (∀ x, Event.importFile x ∈ (loadRouters env st dir opts).trace → x ≠ f)
    ∧ (loadRouters { env with freshLoad := g } st dir opts).result
        = (loadRouters env st dir opts).result := by
  have hnotmem : f ∉ filteredFilesOf env dir opts := by
    intro hmem
    rw [filteredFilesOf, List.mem_filter, hmatch] at hmem
    simp at hmem
  refine ⟨hnotmem, ?_, ?_⟩
  · intro x hx hxf
    subst hxf
    by_cases hacc : env.accessOk (absolutePathOf env dir) = true
    · rw [loadRouters_accessTrue env st dir opts hacc] at hx
      simp only [List.mem_cons] at hx
      rcases hx with h1 | h1 | h1
      · exact absurd h1 (by simp)
      · exact absurd h1 (by simp)
      · exact hnotmem (mem_importEvents_processFiles env _ _ _ _ _ h1)
    · rw [Bool.not_eq_true] at hacc
      rw [loadRouters_accessFalse env st dir opts hacc] at hx
      simp at hx
  · have hc : Env.cwd { env with freshLoad := g } = env.cwd := rfl
    have habs : absolutePathOf { env with freshLoad := g } dir = absolutePathOf env dir :=
      rfl
    have hff : filteredFilesOf { env with freshLoad := g } dir opts
        = filteredFilesOf env dir opts := rfl
    by_cases hacc : env.accessOk (absolutePathOf env dir) = true
    · have hacc2 : Env.accessOk { env with freshLoad := g }
          (absolutePathOf { env with freshLoad := g } dir) = true := hacc
      rw [loadRouters_accessTrue { env with freshLoad := g } st dir opts hacc2,
          loadRouters_accessTrue env st dir opts hacc]
      simp only
      rw [hff, habs,
        processFiles_congr env { env with freshLoad := g } (absolutePathOf env dir)
          opts.prefixStr hc (filteredFilesOf env dir opts) st
          (fun x hxm => hg x (fun hxf => hnotmem (hxf ▸ hxm)))
          (fun x _ => rfl)]
    · rw [Bool.not_eq_true] at hacc
      have hacc2 : Env.accessOk { env with freshLoad := g }
          (absolutePathOf { env with freshLoad := g } dir) = false := hacc
      rw [loadRouters_accessFalse { env with freshLoad := g } st dir opts hacc2,
          loadRouters_accessFalse env st dir opts hacc, habs]

theorem claim8_witness :
    "/r/a.test.js" ∉ filteredFilesOf envIgnore "/r" optsIgnore :=
  (claim8 envIgnore [] "/r" optsIgnore "/r/a.test.js" envIgnore.freshLoad
    (by decide) (fun x _ => rfl)).1

/-! ## Claim C10 -/

/-- C10 (counterexample): with an empty prefix and a file at the root whose
declared path already starts with `/`, the computed final path equals the
declared one, so after the load the cached exported descriptor still holds
exactly the path the file declared — it is overwritten, but not changed. -/
theorem claim10_counterexample :
    (loadRouters envLogin [] "/r" defaultOptions).result
      = Except.ok [⟨"/login", ["post"], [1]⟩]
    ∧ storeFind (loadRouters envLogin [] "/r" defaultOptions).store "/r/login.js"
      = some (some ⟨some "/login", some ["post"], some [1]⟩)
    ∧ envLogin.freshLoad "/r/login.js"
      = .value (some ⟨some "/login", some ["post"], some [1]⟩) := by decide

/-- C10 (amended): for every successfully registered file, the loader
overwrites the cached exported descriptor `path` in place with the
computed final route path (which the registered entry also carries); the
stored value need not differ from the declared one. -/
theorem claim10_amended (env : Env) (absPath pre : String) (st : Store)
    (f : String) (e : RegEntry)
    (h : (processFile env absPath pre st f).entry = some e) :
    ∃ pkg, (importWithCache env st f).1 = LoadOutcome.value (some pkg)
      ∧ storeFind (processFile env absPath pre st f).store f
          = some (some { pkg with
                         path := some (finalPath env.cwd pre absPath f (pkg.path.getD "")) })
      ∧ e.path = finalPath env.cwd pre absPath f (pkg.path.getD "") := by
  obtain ⟨pkg, ho, hv, hr, he⟩ := processFile_entry_some env absPath pre st f e h
  refine ⟨pkg, ho, ?_, by rw [he]⟩
  rw [processFile_eq, ho]
  simp only [stepOutcome, hv, hr, if_true, Bool.false_eq_true, if_false]
  apply storeFind_storeSet_self
  rw [importWithCache_cached env st f (some pkg) ho]
  simp

theorem claim10_witness :
    ∃ pkg, (importWithCache envLogin [] "/r/login.js").1 = LoadOutcome.value (some pkg)
      ∧ storeFind (processFile envLogin "/r" "/api" [] "/r/login.js").store "/r/login.js"
          = some (some { pkg with
                         path := some (finalPath envLogin.cwd "/api" "/r" "/r/login.js"
                                        (pkg.path.getD "")) })
      ∧ RegEntry.path ⟨"/api/login", ["post"], [1]⟩
          = finalPath envLogin.cwd "/api" "/r" "/r/login.js" (pkg.path.getD "") :=
  claim10_amended envLogin "/r" "/api" [] "/r/login.js" ⟨"/api/login", ["post"], [1]⟩
    (by decide)

/-! ## Shape lemmas for the path normalizer -/

theorem splitSlash_ne_nil : ∀ cs : List Char, splitSlash cs ≠ [] := by
  intro cs
  induction cs with
  | nil => simp [splitSlash]
  | cons a as ih =>
    simp only [splitSlash]
    by_cases ha : a = '/'
    · simp [ha]
    · rw [if_neg ha]
      rcases h : splitSlash as with _ | ⟨q, qs⟩
      · exact absurd h ih
      · simp

theorem mem_splitSlash : ∀ (cs : List Char) (p : List Char), p ∈ splitSlash cs →
    (∀ c ∈ p, c ∈ cs) ∧ '/' ∉ p := by
  intro cs
  induction cs with
  | nil =>
    intro p hp
    simp [splitSlash] at hp
    subst hp
    simp
  | cons a as ih =>
    intro p hp
    simp only [splitSlash] at hp
    by_cases ha : a = '/'
    · rw [if_pos ha] at hp
      rcases List.mem_cons.mp hp with rfl | hmem
      · exact ⟨by simp, by simp⟩
      · obtain ⟨h1, h2⟩ := ih p hmem
        exact ⟨fun c hc => List.mem_cons_of_mem a (h1 c hc), h2⟩
    · rw [if_neg ha] at hp
      rcases hsp : splitSlash as with _ | ⟨q, qs⟩
      · exact absurd hsp (splitSlash_ne_nil as)
      · rw [hsp] at hp
        rcases List.mem_cons.mp hp with rfl | hmem
        · obtain ⟨h1, h2⟩ := ih q (by rw [hsp]; exact List.mem_cons_self q qs)
          constructor
          · intro c hc
            rcases List.mem_cons.mp hc with hca | hcq
            · rw [hca]; exact List.mem_cons_self _ _
            · exact List.mem_cons_of_mem _ (h1 c hcq)
          · intro hsl
            rcases List.mem_cons.mp hsl with h | h
            · exact ha h.symm
            · exact h2 h
        · obtain ⟨h1, h2⟩ := ih p (by rw [hsp]; exact List.mem_cons_of_mem q hmem)
          exact ⟨fun c hc => List.mem_cons_of_mem a (h1 c hc), h2⟩

theorem stepSeg_sub (allow : Bool) (acc : List (List Char)) (s x : List Char)
    (hx : x ∈ stepSeg allow acc s) :
    x ∈ acc ∨ (x = s ∧ s ≠ [] ∧ s ≠ ['.']) ∨ x = ['.', '.'] := by
  unfold stepSeg at hx
  by_cases h1 : s = [] ∨ s = ['.']
  · rw [if_pos h1] at hx; exact Or.inl hx
  · rw [if_neg h1] at hx
    push_neg at h1
    by_cases h2 : s = ['.', '.']
    · rw [if_pos h2] at hx
      rcases acc with _ | ⟨a, rest⟩
      · cases allow
        · simp at hx
        · simp at hx; subst hx; right; right; rfl
      · have hx2 : x ∈ (if a = ['.', '.'] then
            (if allow = true then ['.', '.'] :: a :: rest else a :: rest)
            else rest) := hx
        by_cases ha : a = ['.', '.']
        · rw [if_pos ha] at hx2
          cases allow
          · simp at hx2
            rcases hx2 with h | h
            · exact Or.inl (by rw [h]; exact List.mem_cons_self _ _)
            · exact Or.inl (List.mem_cons_of_mem _ h)
          · simp at hx2
            rcases hx2 with h | h | h
            · right; right; exact h
            · exact Or.inl (by rw [h]; exact List.mem_cons_self _ _)
            · exact Or.inl (List.mem_cons_of_mem _ h)
        · rw [if_neg ha] at hx2
          exact Or.inl (List.mem_cons_of_mem a hx2)
    · rw [if_neg h2] at hx
      rcases List.mem_cons.mp hx with rfl | h
      · exact Or.inr (Or.inl ⟨rfl, h1.1, h1.2⟩)
      · exact Or.inl h

theorem foldl_stepSeg_sub (allow : Bool) :
    ∀ (l : List (List Char)) (acc : List (List Char)) (x : List Char),
      x ∈ l.foldl (stepSeg allow) acc →
      x ∈ acc ∨ (x ∈ l ∧ x ≠ [] ∧ x ≠ ['.']) ∨ x = ['.', '.'] := by
  intro l
  induction l with
  | nil => intro acc x hx; exact Or.inl hx
  | cons s rest ih =>
    intro acc x hx
    rw [List.foldl_cons] at hx
    rcases ih (stepSeg allow acc s) x hx with h | ⟨hmem, hne, hnd⟩ | hdd
    · rcases stepSeg_sub allow acc s x h with h2 | ⟨rfl, hne, hnd⟩ | hdd
      · exact Or.inl h2
      · exact Or.inr (Or.inl ⟨List.mem_cons_self _ _, hne, hnd⟩)
      · exact Or.inr (Or.inr hdd)
    · exact Or.inr (Or.inl ⟨List.mem_cons_of_mem s hmem, hne, hnd⟩)
    · exact Or.inr (Or.inr hdd)

theorem mem_normalizeSegs (allow : Bool) (l : List (List Char)) (x : List Char)
    (hx : x ∈ normalizeSegs allow l) :
    (x ∈ l ∧ x ≠ [] ∧ x ≠ ['.']) ∨ x = ['.', '.'] := by
  unfold normalizeSegs at hx
  rw [List.mem_reverse] at hx
  rcases foldl_stepSeg_sub allow l [] x hx with h | h | h
  · simp at h
  · exact Or.inl h
  · exact Or.inr h

theorem mem_joinSegs : ∀ (l : List (List Char)) (c : Char), c ∈ joinSegs l →
    c = '/' ∨ ∃ s ∈ l, c ∈ s := by
  intro l
  induction l with
  | nil => intro c hc; simp [joinSegs] at hc
  | cons s rest ih =>
    intro c hc
    rcases rest with _ | ⟨b, bs⟩
    · exact Or.inr ⟨s, List.mem_cons_self s [], hc⟩
    · have hj : joinSegs (s :: b :: bs) = s ++ '/' :: joinSegs (b :: bs) := rfl
      rw [hj] at hc
      rcases List.mem_append.mp hc with h | h
      · exact Or.inr ⟨s, List.mem_cons_self _ _, h⟩
      · rcases List.mem_cons.mp h with rfl | h2
        · exact Or.inl rfl
        · rcases ih c h2 with h3 | ⟨t, ht, hct⟩
          · exact Or.inl h3
          · exact Or.inr ⟨t, List.mem_cons_of_mem s ht, hct⟩

theorem joinSegs_cons_head (c : Char) (t : List Char) (rest : List (List Char)) :
    ∃ u, joinSegs ((c :: t) :: rest) = c :: u := by
  cases rest with
  | nil => exact ⟨t, rfl⟩
  | cons b bs => exact ⟨t ++ '/' :: joinSegs (b :: bs), rfl⟩



theorem hasPrefixC_doubleslash_cons (c : Char) (t : List Char) (h : c ≠ '/') :
    hasPrefixC ['/', '/'] ('/' :: c :: t) = false := by
  have h2 : ¬('/' = c) := fun hcc => h hcc.symm
  simp [hasPrefixC, h2]

/-- The reassembly never yields a path starting with two separators when the
normalized segment string does not start with one. -/
theorem assemble_no_doubleslash (a t : Bool) (ns : List Char)
    (h : ∀ c u, ns = c :: u → c ≠ '/') :
    hasPrefixC ['/', '/'] (assemble a t ns) = false := by
  unfold assemble
  by_cases h0 : ns = []
  · rw [if_pos h0]
    cases a <;> cases t <;> simp [hasPrefixC]
  · rw [if_neg h0]
    rcases ns with _ | ⟨c, u⟩
    · exact absurd rfl h0
    · have hc : ¬('/' = c) := fun hcc => h c u rfl hcc.symm
      cases a <;> cases t <;> simp [hasPrefixC, hc]

/-- The segments kept by the normalizer are nonempty and slash-free. -/
theorem normalizeSegs_splitSlash_good (allow : Bool) (cs : List Char) (x : List Char)
    (hx : x ∈ normalizeSegs allow (splitSlash cs)) : x ≠ [] ∧ '/' ∉ x := by
  rcases mem_normalizeSegs allow (splitSlash cs) x hx with ⟨hmem, hne, _⟩ | hdd
  · exact ⟨hne, (mem_splitSlash cs x hmem).2⟩
  · subst hdd
    exact ⟨by simp, by decide⟩

/-- the Node normalize never returns a path starting with `//`. -/
theorem normalizeChars_no_doubleslash (cs : List Char) :
    hasPrefixC ['/', '/'] (normalizeChars cs) = false := by
  unfold normalizeChars
  by_cases h0 : cs = []
  · simp [h0, hasPrefixC]
  · rw [if_neg h0]
    apply assemble_no_doubleslash
    intro c u hcu hc
    subst hc
    rcases hsegs : normalizeSegs (!isAbsC cs) (splitSlash cs) with _ | ⟨x, xs⟩
    · rw [hsegs] at hcu; simp [joinSegs] at hcu
    · rw [hsegs] at hcu
      obtain ⟨hne, hsl⟩ := normalizeSegs_splitSlash_good (!isAbsC cs) cs x
        (by rw [hsegs]; exact List.mem_cons_self x xs)
      rcases x with _ | ⟨y, ys⟩
      · exact hne rfl
      · obtain ⟨u2, hu2⟩ := joinSegs_cons_head y ys xs
        rw [hu2] at hcu
        injection hcu with hy _
        exact hsl (by rw [hy]; exact List.mem_cons_self _ _)

/-- Node join never returns a path starting with `//`. -/
theorem joinChars_no_doubleslash (parts : List (List Char)) :
    hasPrefixC ['/', '/'] (joinChars parts) = false := by
  unfold joinChars
  dsimp only
  split
  · decide
  · exact normalizeChars_no_doubleslash _

/-- Characters of `assemble` come from the segment string, `/` or `.`. -/
theorem mem_assemble (a t : Bool) (ns : List Char) (c : Char)
    (hc : c ∈ assemble a t ns) : c ∈ ns ∨ c = '/' ∨ c = '.' := by
  unfold assemble at hc
  by_cases h0 : ns = []
  · rw [if_pos h0] at hc
    cases a <;> cases t <;> simp at hc <;> tauto
  · rw [if_neg h0] at hc
    cases a <;> cases t <;> simp at hc <;> tauto

/-- Characters of a normalized path come from the input, `/` or `.`. -/
theorem mem_normalizeChars (cs : List Char) (c : Char)
    (hc : c ∈ normalizeChars cs) : c ∈ cs ∨ c = '/' ∨ c = '.' := by
  unfold normalizeChars at hc
  by_cases h0 : cs = []
  · rw [if_pos h0] at hc; simp at hc; tauto
  · rw [if_neg h0] at hc
    rcases mem_assemble _ _ _ c hc with h | h | h
    · rcases mem_joinSegs _ c h with h2 | ⟨s, hs, hcs⟩
      · tauto
      · rcases mem_normalizeSegs _ _ s hs with ⟨hmem, _, _⟩ | hdd
        · exact Or.inl ((mem_splitSlash cs s hmem).1 c hcs)
        · subst hdd
          simp at hcs
          tauto
    · tauto
    · tauto

/-- Characters of a joined path come from the parts, `/` or `.`. -/
theorem mem_joinChars (parts : List (List Char)) (c : Char)
    (hc : c ∈ joinChars parts) : (∃ p ∈ parts, c ∈ p) ∨ c = '/' ∨ c = '.' := by
  unfold joinChars at hc
  dsimp only at hc
  split at hc
  · simp at hc; tauto
  · rcases mem_normalizeChars _ c hc with h | h | h
    · rcases mem_joinSegs _ c h with h2 | ⟨s, hs, hcs⟩
      · tauto
      · exact Or.inl ⟨s, (List.mem_filter.mp hs).1, hcs⟩
    · tauto
    · tauto

theorem replaceBS_eq_self (cs : List Char) (h : '\\' ∉ cs) : replaceBS cs = cs := by
  induction cs with
  | nil => rfl
  | cons a as ih =>
    simp only [List.mem_cons, not_or] at h
    have ha : ¬(a = '\\') := fun hb => h.1 hb.symm
    show (if a = '\\' then '/' else a) :: replaceBS as = a :: as
    rw [if_neg ha, ih h.2]

/-! ## Claim C2 -/

/-- C2 (counterexample): a declared path beginning with two backslashes
survives the join unchanged, the backslash replacement turns it into
two leading slashes, and since the result already starts with a slash no
slash is prepended — the registered path has two leading slashes, not
exactly one. -/
theorem claim2_counterexample :
    (loadRouters envBackslash [] "/r" defaultOptions).result
      = Except.ok [⟨"//login", ["get"], [1]⟩]
    ∧ hasPrefixC ['/', '/'] "//login".data = true := by decide

/-- C2 (amended): every registered entry path is the computed
composition — `path.join` of prefix, directory-relative-to-root and the
descriptor path at load time, backslashes replaced by `/`, a `/`
prepended when absent; it always begins with `/`, and it begins with
exactly one `/` provided the prefix, the declared path and the relative
directory contain no backslash (backslash substitution can otherwise
surface a pre-existing `//`). -/
theorem claim2_amended :
    (∀ (env : Env) (absPath pre : String) (st : Store) (files : List String)
       (e : RegEntry), e ∈ (processFiles env absPath pre st files).entries →
       ∃ f pkg, f ∈ files ∧ validPkg pkg = true
         ∧ e.path = finalPath env.cwd pre absPath f (pkg.path.getD ""))
    ∧ (∀ cwd pre absPath file declared : List Char,
        hasPrefixC ['/'] (finalPathChars cwd pre absPath file declared) = true)
    ∧ (∀ cwd pre absPath file declared : List Char,
        '\\' ∉ pre → '\\' ∉ declared →
        '\\' ∉ relativeChars cwd absPath (dirnameChars file) →
        hasPrefixC ['/', '/'] (finalPathChars cwd pre absPath file declared) = false) := by
  refine ⟨?_, ?_, ?_⟩
  · intro env absPath pre st files e he
    obtain ⟨f, pkg, hf, hv, hshape⟩ :=
      mem_entries_processFiles env absPath pre files st e he
    exact ⟨f, pkg, hf, hv, by rw [hshape]⟩
  · intro cwd pre absPath file declared
    unfold finalPathChars
    dsimp only
    split
    · next tail heq => rw [heq]; simp [hasPrefixC]
    · simp [hasPrefixC]
  · intro cwd pre absPath file declared hp hd hr
    unfold finalPathChars
    have hnb : '\\' ∉ joinChars [pre, relativeChars cwd absPath (dirnameChars file),
        declared] := by
      intro hmem
      rcases mem_joinChars _ _ hmem with ⟨p, hp2, hc⟩ | h | h
      · simp only [List.mem_cons, List.not_mem_nil, or_false] at hp2
        rcases hp2 with rfl | rfl | rfl
        · exact hp hc
        · exact hr hc
        · exact hd hc
      · exact absurd h (by decide)
      · exact absurd h (by decide)
    dsimp only
    rw [replaceBS_eq_self _ hnb]
    have hj := joinChars_no_doubleslash
      [pre, relativeChars cwd absPath (dirnameChars file), declared]
    split
    · exact hj
    · next hne =>
      rcases hjc : joinChars [pre, relativeChars cwd absPath (dirnameChars file),
          declared] with _ | ⟨c, u⟩
      · simp [hasPrefixC]
      · have hc : c ≠ '/' := by
          intro hceq
          subst hceq
          exact hne u hjc
        exact hasPrefixC_doubleslash_cons c u hc

theorem claim2_witness :
    hasPrefixC ['/'] (finalPathChars "/app".data "/api".data "/r".data
      "/r/a.js".data "/login".data) = true
    ∧ hasPrefixC ['/', '/'] (finalPathChars "/app".data "/api".data "/r".data
      "/r/a.js".data "/login".data) = false :=
  ⟨claim2_amended.2.1 "/app".data "/api".data "/r".data "/r/a.js".data "/login".data,
   claim2_amended.2.2 "/app".data "/api".data "/r".data "/r/a.js".data "/login".data
     (by decide) (by decide) (by decide)⟩

/-! ## Claim C9 -/

/-- C9 (counterexample): a regular file named `.js` has `.js` as the
suffix starting at the last `.` of its name, and `.js` is in the default
`fileExtensions`; yet discovery retains nothing, because `path.extname`
treats a dot that opens the basename as not starting an extension. -/
theorem claim9_counterexample :
    specExtensionLastDot ".js" = ".js"
    ∧ (".js" ∈ defaultOptions.fileExtensions)
    ∧ extnameStr ".js" = ""
    ∧ filesOf envDotfile "/r" defaultOptions = []
    ∧ (loadRouters envDotfile [] "/r" defaultOptions).result = Except.ok [] := by
  decide

/-- C9 (amended): discovery retains exactly the entries that are regular
files whose *Node `extname`* — which yields `""` for dotfiles like `.js`
and for `..` — is a member of `fileExtensions`; and only retained,
non-ignored files are ever imported. -/
theorem claim9_amended (env : Env) (st : Store) (dir : String) (opts : Options) :
    (∀ f, f ∈ filesOf env dir opts ↔
      ∃ p, p ∈ env.readdir (absolutePathOf env dir) ∧ p.isFile = true
        ∧ extnameStr p.name ∈ opts.fileExtensions
        ∧ f = pathJoin [p.parentPath, p.name])
    ∧ (∀ x, Event.importFile x ∈ (loadRouters env st dir opts).trace →
        x ∈ filesOf env dir opts) := by
  constructor
  · intro f
    unfold filesOf
    simp only [List.mem_map, List.mem_filter, Bool.and_eq_true]
    constructor
    · rintro ⟨p, ⟨hmem, hfile, hext⟩, heq⟩
      exact ⟨p, hmem, hfile, by simpa using hext, heq.symm⟩
    · rintro ⟨p, hmem, hfile, hext, heq⟩
      exact ⟨p, ⟨hmem, hfile, by simpa using hext⟩, heq.symm⟩
  · intro x hx
    by_cases hacc : env.accessOk (absolutePathOf env dir) = true
    · rw [loadRouters_accessTrue env st dir opts hacc] at hx
      simp only [List.mem_cons] at hx
      rcases hx with h | h | h
      · exact absurd h (by simp)
      · exact absurd h (by simp)
      · have hmem := mem_importEvents_processFiles env _ _ _ _ _ h
        unfold filteredFilesOf at hmem
        exact (List.mem_filter.mp hmem).1
    · rw [Bool.not_eq_true] at hacc
      rw [loadRouters_accessFalse env st dir opts hacc] at hx
      simp at hx

theorem claim9_witness :
    "/r/login.js" ∈ filesOf envLogin "/r" defaultOptions :=
  (claim9_amended envLogin [] "/r" defaultOptions).2 "/r/login.js" (by decide)

/-! ## Claim C6 -/

theorem stepOutcome_entry_store_indep (env : Env) (absPath pre f : String)
    (o : LoadOutcome) (st1 st2 : Store) :
    (stepOutcome env absPath pre f o st1).entry
      = (stepOutcome env absPath pre f o st2).entry := by
  rcases o with m | (_ | pkg)
  · rfl
  · rfl
  · simp only [stepOutcome]
    by_cases hv : validPkg pkg = true
    · by_cases hr : env.registerThrows f = true <;> simp [hv, hr]
    · simp [hv]

/-- A cache miss behaves like a fresh load as far as the registered entry
is concerned. -/
theorem processFile_entry_cacheMiss (env : Env) (absPath pre : String) (st : Store)
    (f : String) (h : storeFind st f = none) :
    (processFile env absPath pre st f).entry = freshEntryOf env absPath pre f := by
  unfold freshEntryOf
  rw [processFile_eq, processFile_eq]
  have h1 : (importWithCache env st f).1 = (importWithCache env [] f).1 := by
    rcases hl : env.freshLoad f with m | v
    · rw [importWithCache_missThrows env st f m h hl,
          importWithCache_missThrows env [] f m rfl hl]
    · rw [importWithCache_missValue env st f v h hl,
          importWithCache_missValue env [] f v rfl hl]
  rw [h1]
  exact stepOutcome_entry_store_indep env absPath pre f _ _ _

/-- Over pairwise-distinct files none of which is cached, the loop
registers exactly the fresh outcome of each file, in order. -/
theorem processFiles_entries_nodup (env : Env) (absPath pre : String) :
    ∀ (files : List String) (st : Store),
      (∀ f ∈ files, storeFind st f = none) → files.Nodup →
      (processFiles env absPath pre st files).entries
        = files.filterMap (freshEntryOf env absPath pre) := by
  intro files
  induction files with
  | nil => intro st _ _; rfl
  | cons f rest ih =>
    intro st hmiss hnd
    rw [processFiles_cons, List.filterMap_cons]
    have hf : storeFind st f = none := hmiss f (List.mem_cons_self _ _)
    have hrest : ∀ g ∈ rest,
        storeFind (processFile env absPath pre st f).store g = none := by
      intro g hg
      have hgf : g ≠ f := by
        intro hEq
        subst hEq
        exact (List.nodup_cons.mp hnd).1 hg
      rw [processFile_store_find env absPath pre st f g hgf]
      exact hmiss g (List.mem_cons_of_mem _ hg)
    rw [ih (processFile env absPath pre st f).store hrest (List.nodup_cons.mp hnd).2,
        processFile_entry_cacheMiss env absPath pre st f hf]
    rcases h2 : freshEntryOf env absPath pre f with _ | e <;> simp [h2]

theorem filterMap_eq_map_of_isSome {α β : Type} (g : α → Option β) (d : β) :
    ∀ l : List α, (∀ x ∈ l, (g x).isSome) →
      l.filterMap g = l.map (fun x => (g x).getD d) := by
  intro l
  induction l with
  | nil => intro _; rfl
  | cons a as ih =>
    intro h
    rw [List.filterMap_cons, List.map_cons]
    rcases hg : g a with _ | b
    · exact absurd (hg ▸ h a (List.mem_cons_self _ _)) (by simp)
    · rw [ih (fun x hx => h x (List.mem_cons_of_mem _ hx))]
      simp [hg]

/-- C6 (confirmed): starting from an empty module cache, with pairwise
distinct surviving files each of whose fresh processing registers an entry
(module loads, descriptor valid, registration succeeds), the returned
router stack is exactly the per-file entries in discovery order — in
particular it has exactly as many entries as there are eligible files. -/
theorem claim6 (env : Env) (dir : String) (opts : Options)
    (hacc : env.accessOk (absolutePathOf env dir) = true)
    (hnd : (filteredFilesOf env dir opts).Nodup)
    (hgood : ∀ f ∈ filteredFilesOf env dir opts,
      (freshEntryOf env (absolutePathOf env dir) opts.prefixStr f).isSome) :
    (loadRouters env [] dir opts).result
      = Except.ok ((filteredFilesOf env dir opts).map
          (fun f => (freshEntryOf env (absolutePathOf env dir) opts.prefixStr f).getD
                      ⟨"", [], []⟩))
    ∧ (resultEntries (loadRouters env [] dir opts)).length
        = (filteredFilesOf env dir opts).length := by
  have hmain : (loadRouters env [] dir opts).result
      = Except.ok ((filteredFilesOf env dir opts).map
          (fun f => (freshEntryOf env (absolutePathOf env dir) opts.prefixStr f).getD
                      ⟨"", [], []⟩)) := by
    rw [loadRouters_accessTrue env [] dir opts hacc]
    simp only
    rw [processFiles_entries_nodup env (absolutePathOf env dir) opts.prefixStr
          (filteredFilesOf env dir opts) [] (fun f _ => rfl) hnd,
        filterMap_eq_map_of_isSome _ ⟨"", [], []⟩ _ hgood]
  refine ⟨hmain, ?_⟩
  unfold resultEntries
  rw [hmain]
  simp

theorem claim6_witness :
    (resultEntries (loadRouters envTwoFiles [] "/r" defaultOptions)).length
      = (filteredFilesOf envTwoFiles "/r" defaultOptions).length :=
  (claim6 envTwoFiles "/r" defaultOptions (by decide) (by decide) (by decide)).2

/-! ## Stability of the module cache across invocations -/

theorem validPkg_path_some (pkg : Pkg) (h : validPkg pkg = true) :
    ∃ s, pkg.path = some s := by
  unfold validPkg truthyStr at h
  rcases hp : pkg.path with _ | s
  · rw [hp] at h; simp at h
  · exact ⟨s, rfl⟩

theorem pkg_path_eta (pkg : Pkg) (s : String) (h : pkg.path = some s) :
    ({ pkg with path := some s } : Pkg) = pkg := by
  cases pkg
  simp only at h
  rw [h]

theorem storeFind_extend (st : Store) (l : Store) (x : String) (w : Option Pkg)
    (h : storeFind st x = some w) : storeFind (st ++ l) x = some w := by
  induction st with
  | nil => simp [storeFind] at h
  | cons e rest ih =>
    rcases e with ⟨k, v⟩
    rw [storeFind_cons] at h
    rw [List.cons_append, storeFind_cons]
    by_cases hk : k = x
    · rw [if_pos hk] at h ⊢; exact h
    · rw [if_neg hk] at h ⊢; exact ih h

theorem storeFind_storeSet_none (st : Store) (f : String) (v : Option Pkg)
    (h : storeFind st f = none) : storeFind (storeSet st f v) f = none := by
  induction st with
  | nil => rfl
  | cons e rest ih =>
    rcases e with ⟨k, w⟩
    rw [storeFind_cons] at h
    rw [storeSet_cons]
    by_cases hk : k = f
    · rw [if_pos hk] at h; simp at h
    · rw [if_neg hk] at h
      rw [if_neg hk, storeFind_cons, if_neg hk]
      exact ih h

theorem stableStore_append (env : Env) (st : Store) (f : String) (v : Option Pkg)
    (hst : stableStore env st) (hv : env.freshLoad f = .value v) :
    stableStore env (st ++ [(f, v)]) := by
  intro x w hfind
  by_cases hx : x = f
  · subst hx
    rcases hsf : storeFind st x with _ | w0
    · rw [storeFind_append_self st x v hsf] at hfind
      injection hfind with h1
      rw [← h1]
      exact hv
    · rw [storeFind_extend st [(x, v)] x w0 hsf] at hfind
      injection hfind with h1
      rw [← h1]
      exact hst x w0 hsf
  · rw [storeFind_append_ne st f x v hx] at hfind
    exact hst x w hfind

theorem stableStore_storeSet (env : Env) (st : Store) (f : String) (v : Option Pkg)
    (hst : stableStore env st) (hv : env.freshLoad f = .value v) :
    stableStore env (storeSet st f v) := by
  intro x w hfind
  by_cases hx : x = f
  · subst hx
    rcases hsf : storeFind st x with _ | w0
    · rw [storeFind_storeSet_none st x v hsf] at hfind
      exact absurd hfind (by simp)
    · rw [storeFind_storeSet_self st x v (by rw [hsf]; simp)] at hfind
      injection hfind with h1
      rw [← h1]
      exact hv
  · rw [storeFind_storeSet_ne st f x v hx] at hfind
    exact hst x w hfind

/-- Against a stable cache, processing a file registers exactly what a
fresh load would register. -/
theorem processFile_entry_stable (env : Env) (absPath pre : String) (st : Store)
    (f : String) (hst : stableStore env st) :
    (processFile env absPath pre st f).entry = freshEntryOf env absPath pre f := by
  rcases hsf : storeFind st f with _ | v
  · exact processFile_entry_cacheMiss env absPath pre st f hsf
  · have hv : env.freshLoad f = .value v := hst f v hsf
    unfold freshEntryOf
    rw [processFile_eq, processFile_eq,
        importWithCache_hit env st f v hsf,
        importWithCache_missValue env [] f v rfl hv]
    exact stepOutcome_entry_store_indep env absPath pre f _ _ _

/-- Processing a file under the fixpoint condition keeps the cache stable:
whatever is written back equals the fresh module value. -/
theorem processFile_store_stable (env : Env) (absPath pre : String) (st : Store)
    (f : String) (hst : stableStore env st) (hfix : FixAt env absPath pre f) :
    stableStore env (processFile env absPath pre st f).store := by
  have hrewrite : ∀ pkg, env.freshLoad f = .value (some pkg) → validPkg pkg = true →
      ({ pkg with
         path := some (finalPath env.cwd pre absPath f (pkg.path.getD "")) } : Pkg)
        = pkg := by
    intro pkg hl hval
    obtain ⟨s, hs⟩ := validPkg_path_some pkg hval
    rw [hfix pkg hl hval, hs]
    simp only [Option.getD_some]
    exact pkg_path_eta pkg s hs
  rw [processFile_eq]
  rcases hsf : storeFind st f with _ | v
  · rcases hl : env.freshLoad f with m | v
    · rw [importWithCache_missThrows env st f m hsf hl]
      exact hst
    · rw [importWithCache_missValue env st f v hsf hl]
      have hst' : stableStore env (st ++ [(f, v)]) :=
        stableStore_append env st f v hst hl
      rcases v with _ | pkg
      · exact hst'
      · by_cases hval : validPkg pkg = true
        · simp only [stepOutcome, hval, if_true]
          by_cases hreg : env.registerThrows f = true
          · simp only [hreg, if_true]
            rw [hrewrite pkg hl hval]
            exact stableStore_storeSet env _ f (some pkg) hst' hl
          · rw [Bool.not_eq_true] at hreg
            simp only [hreg, Bool.false_eq_true, if_false]
            rw [hrewrite pkg hl hval]
            exact stableStore_storeSet env _ f (some pkg) hst' hl
        · simp only [stepOutcome, hval, if_false]
          exact hst'
  · have hv : env.freshLoad f = .value v := hst f v hsf
    rw [importWithCache_hit env st f v hsf]
    rcases v with _ | pkg
    · exact hst
    · by_cases hval : validPkg pkg = true
      · simp only [stepOutcome, hval, if_true]
        by_cases hreg : env.registerThrows f = true
        · simp only [hreg, if_true]
          rw [hrewrite pkg hv hval]
          exact stableStore_storeSet env st f (some pkg) hst hv
        · rw [Bool.not_eq_true] at hreg
          simp only [hreg, Bool.false_eq_true, if_false]
          rw [hrewrite pkg hv hval]
          exact stableStore_storeSet env st f (some pkg) hst hv
      · simp only [stepOutcome, hval, if_false]
        exact hst

/-- Over a stable cache, the whole loop registers the fresh outcome of each
file, and leaves the cache stable — the basis for comparing two runs. -/
theorem processFiles_stable (env : Env) (absPath pre : String) :
    ∀ (files : List String) (st : Store),
      stableStore env st → (∀ f ∈ files, FixAt env absPath pre f) →
      (processFiles env absPath pre st files).entries
        = files.filterMap (freshEntryOf env absPath pre)
      ∧ stableStore env (processFiles env absPath pre st files).store := by
  intro files
  induction files with
  | nil => intro st hst _; exact ⟨rfl, hst⟩
  | cons f rest ih =>
    intro st hst hfix
    have hstep_entry := processFile_entry_stable env absPath pre st f hst
    have hstep_store := processFile_store_stable env absPath pre st f hst
        (hfix f (List.mem_cons_self _ _))
    obtain ⟨ih1, ih2⟩ := ih (processFile env absPath pre st f).store hstep_store
        (fun g hg => hfix g (List.mem_cons_of_mem _ hg))
    constructor
    · show (processFile env absPath pre st f).entry.toList
          ++ (processFiles env absPath pre
                (processFile env absPath pre st f).store rest).entries
          = List.filterMap (freshEntryOf env absPath pre) (f :: rest)
      rw [ih1, hstep_entry, List.filterMap_cons]
      rcases h2 : freshEntryOf env absPath pre f with _ | e <;> simp [h2]
    · show stableStore env (processFiles env absPath pre
          (processFile env absPath pre st f).store rest).store
      exact ih2

/-! ## Claim C5 (counterexample part) -/

/-- C5 (counterexample): invocations are *not* independent. The module
cache survives the first load and the loader mutated each cached
descriptor `path`; with prefix `/api`, a second load of the same
directory with the same options re-applies the prefix to the already
rewritten path and registers `/api/api/login` instead of `/api/login`. -/
theorem claim5_counterexample :
    (loadRouters envLogin [] "/r" optsApi).result
      = Except.ok [⟨"/api/login", ["post"], [1]⟩]
    ∧ (loadRouters envLogin (loadRouters envLogin [] "/r" optsApi).store
         "/r" optsApi).result
      = Except.ok [⟨"/api/api/login", ["post"], [1]⟩]
    ∧ (loadRouters envLogin (loadRouters envLogin [] "/r" optsApi).store
         "/r" optsApi).result
      ≠ (loadRouters envLogin [] "/r" optsApi).result := by decide

/-- C5 (amended): each invocation allocates its own router, but the module
cache and the in-place `path` mutation persist across invocations. Two
successive loads of the same directory with the same options return the
same result provided the path rewrite is a fixpoint on every surviving
file freshly loaded descriptor (as with an empty prefix, files at the
root and `/`-prefixed declared paths); the counterexample shows they can
differ otherwise. -/
theorem claim5_amended (env : Env) (dir : String) (opts : Options)
    (hfix : ∀ f ∈ filteredFilesOf env dir opts,
      FixAt env (absolutePathOf env dir) opts.prefixStr f) :
    (loadRouters env (loadRouters env [] dir opts).store dir opts).result
      = (loadRouters env [] dir opts).result := by
  by_cases hacc : env.accessOk (absolutePathOf env dir) = true
  · have hempty : stableStore env ([] : Store) := by
      intro f v h
      simp [storeFind] at h
    obtain ⟨h1e, h1s⟩ := processFiles_stable env (absolutePathOf env dir)
        opts.prefixStr (filteredFilesOf env dir opts) [] hempty hfix
    obtain ⟨h2e, _⟩ := processFiles_stable env (absolutePathOf env dir)
        opts.prefixStr (filteredFilesOf env dir opts)
        (processFiles env (absolutePathOf env dir) opts.prefixStr []
          (filteredFilesOf env dir opts)).store h1s hfix
    have hstore : (loadRouters env [] dir opts).store
        = (processFiles env (absolutePathOf env dir) opts.prefixStr []
            (filteredFilesOf env dir opts)).store := by
      rw [loadRouters_accessTrue env [] dir opts hacc]
    rw [hstore,
        loadRouters_accessTrue env
          (processFiles env (absolutePathOf env dir) opts.prefixStr []
            (filteredFilesOf env dir opts)).store dir opts hacc,
        loadRouters_accessTrue env [] dir opts hacc]
    simp only
    rw [h1e, h2e]
  · rw [Bool.not_eq_true] at hacc
    have h1 := loadRouters_accessFalse env [] dir opts hacc
    rw [h1]
    show (loadRouters env [] dir opts).result = _
    rw [h1]

/-! ## Prefix preservation (claim C7) -/

theorem splitSlash_append_slash : ∀ (xs ys : List Char),
    splitSlash (xs ++ '/' :: ys) = splitSlash xs ++ splitSlash ys := by
  intro xs ys
  induction xs with
  | nil => simp [splitSlash]
  | cons a as ih =>
    rw [List.cons_append]
    by_cases ha : a = '/'
    · subst ha
      simp only [splitSlash, if_pos rfl]
      rw [ih]
      simp
    · simp only [splitSlash, if_neg ha]
      rw [ih]
      rcases hsp : splitSlash as with _ | ⟨h, t⟩
      · exact absurd hsp (splitSlash_ne_nil as)
      · simp [List.cons_append]

theorem splitSlash_joinSegs : ∀ l : List (List Char), l ≠ [] →
    splitSlash (joinSegs l) = (l.map splitSlash).flatten := by
  intro l
  induction l with
  | nil => intro h; exact absurd rfl h
  | cons s rest ih =>
    intro _
    rcases rest with _ | ⟨b, bs⟩
    · simp [joinSegs]
    · have hj : joinSegs (s :: b :: bs) = s ++ '/' :: joinSegs (b :: bs) := rfl
      rw [hj, splitSlash_append_slash, ih (by simp)]
      simp

theorem foldl_stepSeg_no_dotdot (allow : Bool) :
    ∀ (l : List (List Char)) (acc : List (List Char)),
      (∀ s ∈ l, s ≠ ['.', '.']) →
      l.foldl (stepSeg allow) acc = (l.filter realSeg).reverse ++ acc := by
  intro l
  induction l with
  | nil => intro acc _; simp
  | cons s rest ih =>
    intro acc h
    rw [List.foldl_cons]
    have hs : s ≠ ['.', '.'] := h s (List.mem_cons_self _ _)
    have hstep : stepSeg allow acc s = if s = [] ∨ s = ['.'] then acc else s :: acc := by
      unfold stepSeg
      by_cases h1 : s = [] ∨ s = ['.']
      · rw [if_pos h1, if_pos h1]
      · rw [if_neg h1, if_neg h1, if_neg hs]
    rw [hstep]
    by_cases h1 : s = [] ∨ s = ['.']
    · rw [if_pos h1, ih acc (fun t ht => h t (List.mem_cons_of_mem _ ht))]
      have hreal : realSeg s = false := by
        rcases h1 with h1 | h1 <;> simp [realSeg, h1]
      rw [List.filter_cons, hreal]
      simp
    · rw [if_neg h1, ih (s :: acc) (fun t ht => h t (List.mem_cons_of_mem _ ht))]
      push_neg at h1
      have hreal : realSeg s = true := by
        simp [realSeg, h1.1, h1.2]
      rw [List.filter_cons, hreal]
      simp

theorem normalizeSegs_no_dotdot (allow : Bool) (l : List (List Char))
    (h : ∀ s ∈ l, s ≠ ['.', '.']) :
    normalizeSegs allow l = l.filter realSeg := by
  unfold normalizeSegs
  rw [foldl_stepSeg_no_dotdot allow l [] h]
  simp

/-- Joining `/api` in front of dotdot-free parts with at least one real
segment yields a path that starts with `/api/`. -/
theorem joinChars_api (l : List (List Char))
    (hnd : ∀ s ∈ l, ∀ p ∈ splitSlash s, p ≠ ['.', '.'])
    (hreal : ∃ s ∈ l, ∃ p ∈ splitSlash s, realSeg p = true) :
    ∃ rest, joinChars ("/api".data :: l) = '/' :: 'a' :: 'p' :: 'i' :: '/' :: rest := by
  have hfilter : ("/api".data :: l).filter (fun p => p ≠ [])
      = "/api".data :: l.filter (fun p => p ≠ []) := by
    rw [List.filter_cons]
    simp
  have hne : ("/api".data :: l).filter (fun p => p ≠ []) ≠ [] := by
    rw [hfilter]; simp
  unfold joinChars
  dsimp only
  rw [if_neg hne, hfilter]
  set ne2 := l.filter (fun p => p ≠ []) with hne2
  have hsplit : splitSlash (joinSegs ("/api".data :: ne2))
      = [] :: "api".data :: (ne2.map splitSlash).flatten := by
    rw [splitSlash_joinSegs ("/api".data :: ne2) (by simp)]
    simp only [List.map_cons, List.flatten]
    have h4 : splitSlash "/api".data = [[], "api".data] := by decide
    rw [h4]
    rfl
  obtain ⟨u, hu0⟩ := joinSegs_cons_head '/' "api".data ne2
  have hu : joinSegs ("/api".data :: ne2) = '/' :: u := hu0
  have habs : isAbsC (joinSegs ("/api".data :: ne2)) = true := by
    rw [hu]; rfl
  have hjne : joinSegs ("/api".data :: ne2) ≠ [] := by
    rw [hu]; simp
  have hnd2 : ∀ p ∈ [] :: "api".data :: (ne2.map splitSlash).flatten,
      p ≠ ['.', '.'] := by
    intro p hp
    rcases List.mem_cons.mp hp with rfl | hp
    · simp
    · rcases List.mem_cons.mp hp with rfl | hp
      · decide
      · obtain ⟨ps, hps, hpin⟩ := List.mem_flatten.mp hp
        obtain ⟨t, hsmem, hseq⟩ := List.mem_map.mp hps
        subst hseq
        exact hnd t (List.mem_filter.mp hsmem).1 p hpin
  have hreal2 : ∃ p ∈ (ne2.map splitSlash).flatten, realSeg p = true := by
    obtain ⟨t, ht, p, hp, hpr⟩ := hreal
    have htne : t ≠ [] := by
      intro hEq
      subst hEq
      simp [splitSlash] at hp
      subst hp
      simp [realSeg] at hpr
    refine ⟨p, ?_, hpr⟩
    exact List.mem_flatten.mpr ⟨splitSlash t,
      List.mem_map.mpr ⟨t, List.mem_filter.mpr ⟨ht, by simpa using htne⟩, rfl⟩, hp⟩
  unfold normalizeChars
  rw [if_neg hjne, habs, hsplit]
  simp only [Bool.not_true]
  rw [normalizeSegs_no_dotdot false _ hnd2]
  rw [List.filter_cons, List.filter_cons]
  have hr0 : realSeg ([] : List Char) = false := by decide
  have hr1 : realSeg "api".data = true := by decide
  rw [hr0, hr1]
  simp only [Bool.false_eq_true, if_false, if_true]
  rcases hfl : ((ne2.map splitSlash).flatten).filter realSeg with _ | ⟨x, xs⟩
  · obtain ⟨p, hp, hpr⟩ := hreal2
    have hpmem : p ∈ ((ne2.map splitSlash).flatten).filter realSeg :=
      List.mem_filter.mpr ⟨hp, hpr⟩
    rw [hfl] at hpmem
    simp at hpmem
  · have hjs : joinSegs ("api".data :: x :: xs)
        = 'a' :: 'p' :: 'i' :: '/' :: joinSegs (x :: xs) := rfl
    rw [hjs]
    unfold assemble
    rw [if_neg (by simp)]
    dsimp only
    by_cases htr : isTrailC (joinSegs ("/api".data :: ne2)) = true
    · rw [htr]
      simp only [if_true]
      exact ⟨joinSegs (x :: xs) ++ ['/'], rfl⟩
    · rw [Bool.not_eq_true] at htr
      rw [htr]
      simp only [Bool.false_eq_true, if_false]
      exact ⟨joinSegs (x :: xs), rfl⟩

/-- The computed final path with prefix `/api` starts with `/api/`, when
the relative directory and the declared path contain no `..` segment and
at least one kept segment exists between them. -/
theorem finalPathChars_api (cwd absPath file declared : List Char)
    (h1 : ∀ p ∈ splitSlash (relativeChars cwd absPath (dirnameChars file)),
      p ≠ ['.', '.'])
    (h2 : ∀ p ∈ splitSlash declared, p ≠ ['.', '.'])
    (h3 : (∃ p ∈ splitSlash (relativeChars cwd absPath (dirnameChars file)),
            realSeg p = true)
          ∨ (∃ p ∈ splitSlash declared, realSeg p = true)) :
    hasPrefixC "/api/".data (finalPathChars cwd "/api".data absPath file declared)
      = true := by
  obtain ⟨rest, hjoin⟩ := joinChars_api
    [relativeChars cwd absPath (dirnameChars file), declared]
    (by
      intro t ht p hp
      simp only [List.mem_cons, List.not_mem_nil, or_false] at ht
      rcases ht with rfl | rfl
      · exact h1 p hp
      · exact h2 p hp)
    (by
      rcases h3 with ⟨p, hp, hpr⟩ | ⟨p, hp, hpr⟩
      · exact ⟨relativeChars cwd absPath (dirnameChars file), by simp, p, hp, hpr⟩
      · exact ⟨declared, by simp, p, hp, hpr⟩)
  unfold finalPathChars
  dsimp only
  rw [hjoin]
  have hrep : replaceBS ('/' :: 'a' :: 'p' :: 'i' :: '/' :: rest)
      = '/' :: 'a' :: 'p' :: 'i' :: '/' :: replaceBS rest := rfl
  rw [hrep]
  simp [hasPrefixC]

/-! ## Claim C7 -/

theorem resultEntries_ok (es : List RegEntry) (st : Store) (tr : List Event) :
    resultEntries ⟨.ok es, st, tr⟩ = es := rfl

theorem resultEntries_error (m : String) (st : Store) (tr : List Event) :
    resultEntries ⟨.error m, st, tr⟩ = [] := rfl

/-- C7 (counterexample): with prefix `/api` and a valid descriptor whose
declared path is `".."`, `path.join` resolves the dotdot and registers
`/`, which does not match `^/api/`. -/
theorem claim7_counterexample :
    validPkg ⟨some "..", some ["get"], some [1]⟩ = true
    ∧ (loadRouters envDotDot [] "/r" optsApi).result
        = Except.ok [⟨"/", ["get"], [1]⟩]
    ∧ hasPrefixC "/api/".data "/".data = false := by decide

/-- C7 (amended): with prefix `"/api"`, starting from an empty module
cache, every registered path starts with `/api/` provided no surviving
file relative directory or declared path contains a `..` segment and at
least one kept segment exists between them (`..` segments are resolved by
`path.join` and can climb out of the prefix; a bare `"."` yields `/api`
without the trailing slash). -/
theorem claim7_amended (env : Env) (dir : String) (opts : Options)
    (hpre : opts.prefixStr = "/api")
    (hnd : (filteredFilesOf env dir opts).Nodup)
    (hgood : ∀ f ∈ filteredFilesOf env dir opts, ∀ pkg,
      env.freshLoad f = .value (some pkg) → validPkg pkg = true →
      (∀ p ∈ splitSlash (relativeChars env.cwd.data (absolutePathOf env dir).data
          (dirnameChars f.data)), p ≠ ['.', '.'])
      ∧ (∀ p ∈ splitSlash (pkg.path.getD "").data, p ≠ ['.', '.'])
      ∧ ((∃ p ∈ splitSlash (relativeChars env.cwd.data (absolutePathOf env dir).data
            (dirnameChars f.data)), realSeg p = true)
         ∨ (∃ p ∈ splitSlash (pkg.path.getD "").data, realSeg p = true))) :
    ∀ e ∈ resultEntries (loadRouters env [] dir opts),
      hasPrefixC "/api/".data e.path.data = true := by
  intro e he
  by_cases hacc : env.accessOk (absolutePathOf env dir) = true
  · rw [loadRouters_accessTrue env [] dir opts hacc] at he
    rw [resultEntries_ok] at he
    rw [processFiles_entries_nodup env (absolutePathOf env dir) opts.prefixStr
        (filteredFilesOf env dir opts) [] (fun f _ => rfl) hnd] at he
    obtain ⟨f, hf, hstep⟩ := List.mem_filterMap.mp he
    obtain ⟨pkg, himp, hval, hreg, hshape⟩ :=
      processFile_entry_some env (absolutePathOf env dir) opts.prefixStr [] f e hstep
    have hload : env.freshLoad f = .value (some pkg) := by
      rcases hl : env.freshLoad f with m | v
      · rw [importWithCache_missThrows env [] f m rfl hl] at himp
        exact absurd himp (by simp)
      · rw [importWithCache_missValue env [] f v rfl hl] at himp
        have himp2 : LoadOutcome.value v = LoadOutcome.value (some pkg) := himp
        injection himp2 with hv2
    obtain ⟨hr1, hr2, hr3⟩ := hgood f hf pkg hload hval
    rw [hshape]
    show hasPrefixC "/api/".data
      (finalPath env.cwd opts.prefixStr (absolutePathOf env dir) f
        (pkg.path.getD "")).data = true
    rw [hpre]
    have hdata : (finalPath env.cwd "/api" (absolutePathOf env dir) f
        (pkg.path.getD "")).data
        = finalPathChars env.cwd.data "/api".data (absolutePathOf env dir).data
            f.data (pkg.path.getD "").data := rfl
    rw [hdata]
    exact finalPathChars_api env.cwd.data (absolutePathOf env dir).data f.data
      (pkg.path.getD "").data hr1 hr2 hr3
  · rw [Bool.not_eq_true] at hacc
    rw [loadRouters_accessFalse env [] dir opts hacc] at he
    rw [resultEntries_error] at he
    simp at he

theorem claim7_witness :
    hasPrefixC "/api/".data (RegEntry.path ⟨"/api/login", ["post"], [1]⟩).data
      = true := by
  apply claim7_amended envLogin "/r" optsApi rfl (by decide)
    ?_ ⟨"/api/login", ["post"], [1]⟩ (by decide)
  intro f hf pkg hload hval
  have hf2 : f = "/r/login.js" := by
    have hlist : filteredFilesOf envLogin "/r" optsApi = ["/r/login.js"] := by decide
    rw [hlist] at hf
    simpa using hf
  subst hf2
  have hpv : envLogin.freshLoad "/r/login.js"
      = .value (some ⟨some "/login", some ["post"], some [1]⟩) := by decide
  rw [hpv] at hload
  injection hload with h1
  injection h1 with h2
  rw [← h2]
  refine ⟨by decide, by decide, Or.inr (by decide)⟩

theorem claim5_witness :
    (loadRouters envLogin (loadRouters envLogin [] "/r" defaultOptions).store
       "/r" defaultOptions).result
      = (loadRouters envLogin [] "/r" defaultOptions).result := by
  apply claim5_amended
  intro f hf pkg hload hval
  have hf2 : f = "/r/login.js" := by
    have hlist : filteredFilesOf envLogin "/r" defaultOptions = ["/r/login.js"] := by
      decide
    rw [hlist] at hf
    simpa using hf
  subst hf2
  have hpv : envLogin.freshLoad "/r/login.js"
      = .value (some ⟨some "/login", some ["post"], some [1]⟩) := by decide
  rw [hpv] at hload
  injection hload with h1
  injection h1 with h2
  rw [← h2]
  decide

end KoaLoader
